import Mathlib

/-!
Verification development for the treexml element-tree XML library.

The Rust source is shallowly embedded: the event boundary with the external
`xml-rs` lexer/writer is modelled as a list of typed events, `IndexMap` as an
insertion-ordered association list, fallible operations return `Except`, and
the `panic!` on a mismatched closing tag is modelled as a distinguished
failure outcome (`Error.panicMismatch`).  A reader error from the external
lexer (including running out of input mid-document) is modelled as exhaustion
of the event list, yielding `Error.parseError`.
-/

namespace Treexml

/-- Enumeration of XML versions (`XmlVersion` in `lib.rs`). -/
inductive XmlVersion where
  | version10
  | version11
deriving DecidableEq, Repr

/-- An attribute as carried by a reader start-element event: optional
namespace prefix, local name, and value (models `xml-rs` `OwnedAttribute`). -/
structure XAttr where
  pfx : Option String
  localName : String
  value : String
deriving DecidableEq, Repr

/-- The event vocabulary of the external XML event source/sink
(models `xml::reader::XmlEvent`; payloads irrelevant to the tree layer are
dropped). -/
inductive XmlEvent where
  | startDocument (version : XmlVersion) (encoding : String)
  | endDocument
  | startElement (pfx : Option String) (name : String) (attributes : List XAttr)
  | endElement (pfx : Option String) (name : String)
  | characters (s : String)
  | cdataEvent (s : String)
  | processingInstruction
  | whitespace (s : String)
  | comment (s : String)
deriving DecidableEq, Repr

/-- The library error type (models `errors.rs`).  `parseError`/`writeError`
carry an external error object in Rust, modelled payload-free here;
`panicMismatch` models the `panic!` on a mismatched closing tag in
`Element::parse`, carrying the offending closing tag's prefix and name. -/
inductive Error where
  | elementNotFound (t : String)
  | valueFromStr (t : String)
  | parseError
  | writeError
  | panicMismatch (pfx : Option String) (name : String)
deriving DecidableEq, Repr

/-- An XML element (models `struct Element` in `lib.rs`): tag prefix, local
name, insertion-ordered attribute map, children in document order, and
accumulated text/CDATA.  The Rust field `prefix` is named `pfx` here. -/
structure Element where
  pfx : Option String
  name : String
  attributes : List (String × String)
  children : List Element
  text : Option String
  cdata : Option String

/-- The default `Element` (models `impl Default for Element`). -/
def defaultElement : Element :=
  { pfx := none, name := ("tag"), attributes := [], children := [],
    text := none, cdata := none }

/-- `Element::new`: a fresh element with the given tag name. -/
def Element.new (n : String) : Element :=
  { defaultElement with name := n }

/-- Whether the ordered map already holds the key (models `IndexMap` key
lookup used implicitly by `insert`). -/
def mapHasKey (m : List (String × String)) (k : String) : Bool :=
  (m.map Prod.fst).contains k

/-- `IndexMap::insert`: replace the value in place when the key exists
(keeping its position), otherwise append the new pair. -/
def mapInsert (m : List (String × String)) (k v : String) : List (String × String) :=
  if mapHasKey m k then
    m.map (fun kv => if kv.fst = k then (kv.fst, v) else kv)
  else m ++ [(k, v)]

/-- Attribute-name normalization from `Element::parse`: a prefixed attribute
maps under the key `prefix:localname`, otherwise under the bare local name. -/
def attrKey (a : XAttr) : String :=
  match a.pfx with
  | some p => p ++ (":") ++ a.localName
  | none => a.localName

/-- Building the attribute map of a start tag, in event order (the
`for attr in attributes` loop of `Element::parse` / `Document::parse`). -/
def attrsToMap (attrs : List XAttr) : List (String × String) :=
  attrs.foldl (fun m a => mapInsert m (attrKey a) a.value) []

/-- The element freshly created from a start-tag event, before its contents
are parsed (the `Element { prefix, name, attributes, ..Default }` expression
in `Element::parse` and `Document::parse`). -/
def fromStartTag (p : Option String) (n : String) (attrs : List XAttr) : Element :=
  { pfx := p, name := n, attributes := attrsToMap attrs, children := [],
    text := none, cdata := none }

/-- The recursive worker for `Element::parse`.  It consumes events until and
including the end tag matching `self`, threading `self` through text/CDATA
accumulation and child insertion exactly as the Rust loop does.  The returned
remainder is bundled with a proof that events were consumed, which drives
termination.  Stream exhaustion models a reader error; the mismatched-close
`panic!` is modelled as the `panicMismatch` failure outcome. -/
def Element.parseAux : (self : Element) → (events : List XmlEvent) →
    Except Error (Element × { rest : List XmlEvent // rest.length < events.length })
  | _, [] => .error .parseError
  | self, ev :: evs =>
    match ev with
    | .startElement p n attrs =>
      match Element.parseAux (fromStartTag p n attrs) evs with
      | .error e => .error e
      | .ok (child, ⟨rest1, h1⟩) =>
        match Element.parseAux { self with children := self.children ++ [child] } rest1 with
        | .error e => .error e
        | .ok (result, ⟨rest2, h2⟩) => .ok (result, ⟨rest2, by simp only [List.length_cons]; omega⟩)
    | .endElement p n =>
      if p = self.pfx ∧ n = self.name then
        .ok (self, ⟨evs, by simp only [List.length_cons]; omega⟩)
      else
        .error (.panicMismatch p n)
    | .characters s =>
      match Element.parseAux { self with text := some (self.text.getD ("") ++ s) } evs with
      | .error e => .error e
      | .ok (result, ⟨rest1, h1⟩) => .ok (result, ⟨rest1, by simp only [List.length_cons]; omega⟩)
    | .cdataEvent s =>
      match Element.parseAux { self with cdata := some (self.cdata.getD ("") ++ s) } evs with
      | .error e => .error e
      | .ok (result, ⟨rest1, h1⟩) => .ok (result, ⟨rest1, by simp only [List.length_cons]; omega⟩)
    | _ =>
      match Element.parseAux self evs with
      | .error e => .error e
      | .ok (result, ⟨rest1, h1⟩) => .ok (result, ⟨rest1, by simp only [List.length_cons]; omega⟩)
termination_by _ events => events.length
decreasing_by all_goals (simp_wf; try omega)

/-- `Element::parse`: parse the contents of an element, returning the
completed element and the unconsumed remainder of the event stream. -/
def Element.parse (self : Element) (events : List XmlEvent) :
    Except Error (Element × List XmlEvent) :=
  match Element.parseAux self events with
  | .error e => .error e
  | .ok (el, rest) => .ok (el, rest.val)

/-- An XML document (models `struct Document`). -/
structure Document where
  version : XmlVersion
  encoding : String
  root : Option Element

/-- The default `Document` (models `impl Default for Document`):
version 1.0, UTF-8, no root. -/
def defaultDocument : Document :=
  { version := .version10, encoding := ("UTF-8"), root := none }

/-- The event loop of `Document::parse`: record declaration data, build the
root element from the first (or any subsequent) top-level start tag, stop
with success at an end-document event, ignore everything else. -/
def Document.parseEvents : (doc : Document) → (events : List XmlEvent) → Except Error Document
  | _, [] => .error .parseError
  | doc, ev :: evs =>
    match ev with
    | .startDocument v enc =>
      Document.parseEvents { doc with version := v, encoding := enc } evs
    | .startElement p n attrs =>
      match Element.parseAux (fromStartTag p n attrs) evs with
      | .error e => .error e
      | .ok (root, ⟨rest1, _h1⟩) =>
        Document.parseEvents { doc with root := some root } rest1
    | .endDocument => .ok doc
    | _ => Document.parseEvents doc evs
termination_by _ events => events.length
decreasing_by all_goals (simp_wf; try omega)

/-- `Document::parse`: run the event loop on a fresh default document. -/
def Document.parse (events : List XmlEvent) : Except Error Document :=
  Document.parseEvents defaultDocument events

/-- The attribute list emitted on a start tag by `Element::write`: every
stored key becomes a local (prefix-free) attribute name via `Name::local`,
values verbatim, in stored order. -/
def startAttrs (e : Element) : List XAttr :=
  e.attributes.map (fun kv => ⟨none, kv.fst, kv.snd⟩)

/-- At most one event from an optional accumulated string (the
`if let Some(ref text) = self.text` blocks of `Element::write`). -/
def optEvent (f : String → XmlEvent) : Option String → List XmlEvent
  | some s => [f s]
  | none => []

mutual

/-- `Element::write`: emit a start tag carrying only the local name
(`Name::local` drops any prefix) and the attributes in stored order, then
text (if set), CDATA (if set), the children in order, and the end tag. -/
def Element.write : Element → List XmlEvent
  | ⟨_, n, attrs, cs, t, d⟩ =>
    .startElement none n (attrs.map (fun kv => ⟨none, kv.fst, kv.snd⟩)) ::
      (optEvent XmlEvent.characters t ++ optEvent XmlEvent.cdataEvent d ++
        writeList cs ++ [.endElement none n])

/-- The `for e in &self.children` loop of `Element::write`. -/
def writeList : List Element → List XmlEvent
  | [] => []
  | c :: cs => Element.write c ++ writeList cs

end

/-- The events of `Element::write` after the start tag. -/
def bodyEvents (e : Element) : List XmlEvent :=
  optEvent XmlEvent.characters e.text ++ optEvent XmlEvent.cdataEvent e.cdata ++
    writeList e.children ++ [.endElement none e.name]

/-- `Element::find_child`: first direct child satisfying the predicate, in
child order. -/
def Element.findChild (e : Element) (p : Element → Bool) : Option Element :=
  e.children.find? p

/-- `Element::find_path`: resolve a segment list against a tree, descending
at each segment into the first direct child with that name; an empty segment
list resolves to the current element; a failed lookup reports the original
full path string. -/
def Element.findPath : List String → String → Element → Except Error Element
  | [], _, tree => .ok tree
  | seg :: restPath, original, tree =>
    match tree.findChild (fun t => t.name = seg) with
    | some el => Element.findPath restPath original el
    | none => .error (.elementNotFound original)

/-- Splitting on a separator character with the semantics of Rust
`str::split('/')` (modelled here because the splitter lives in the Rust
standard library): n separators yield n+1 pieces, empty pieces included, and
the empty string yields one empty piece. -/
def splitCharList (sep : Char) : List Char → List (List Char)
  | [] => [[]]
  | c :: rest =>
    if c = sep then [] :: splitCharList sep rest
    else
      match splitCharList sep rest with
      | [] => [[c]]
      | g :: gs => (c :: g) :: gs

/-- String-level wrapper for `splitCharList`. -/
def splitChar (sep : Char) (s : String) : List String :=
  (splitCharList sep s.data).map (fun cs => String.mk cs)

/-- `Element::find`: split the path on slashes and resolve it. -/
def Element.find (e : Element) (path : String) : Except Error Element :=
  Element.findPath (splitChar ('/') path) path e

/-- `Element::find_value`: resolve the path, then parse the resolved
element's text, if any, with the given string-to-value conversion (models the
generic `T: FromStr` bound; a conversion failure carries the offending
text). -/
def Element.findValue {T : Type} (fromStr : String → Option T) (e : Element)
    (path : String) : Except Error (Option T) :=
  match e.find path with
  | .error err => .error err
  | .ok el =>
    match el.text with
    | some t =>
      match fromStr t with
      | none => .error (.valueFromStr t)
      | some v => .ok (some v)
    | none => .ok none

/-- `IndexMap::get` by key: the value of the first entry with that key. -/
def mapGet (m : List (String × String)) (k : String) : Option String :=
  (m.find? (fun kv => kv.fst = k)).map Prod.snd

/-- `IndexMap` equality (order-independent): same length, and every
key-value pair of the left map is found in the right one. -/
def mapEq (a b : List (String × String)) : Bool :=
  a.length == b.length && a.all (fun kv => mapGet b kv.fst == some kv.snd)

mutual

/-- The derived `PartialEq` of `Element`: fieldwise equality, with the
order-independent `IndexMap` equality on attributes and elementwise equality
on the children vector. -/
def Element.eq : Element → Element → Bool
  | ⟨p1, n1, a1, c1, t1, d1⟩, ⟨p2, n2, a2, c2, t2, d2⟩ =>
    p1 == p2 && n1 == n2 && mapEq a1 a2 && elemListEq c1 c2 && t1 == t2 && d1 == d2

/-- `Vec<Element>` equality: elementwise, in order. -/
def elemListEq : List Element → List Element → Bool
  | [], [] => true
  | x :: xs, y :: ys => Element.eq x y && elemListEq xs ys
  | _, _ => false

end

/-- Keys of an attribute list are pairwise distinct (the invariant `IndexMap`
maintains for any map built through `insert`). -/
def keysDistinct : List String → Bool
  | [] => true
  | k :: ks => !(ks.contains k) && keysDistinct ks

/-- Attribute lists of a tree built from supported constructs: distinct keys
and no key in `prefix:local` form (no colon). -/
def attrKeysOk (attrs : List (String × String)) : Bool :=
  keysDistinct (attrs.map Prod.fst) &&
    attrs.all (fun kv => !(kv.fst.data.contains (':')))

mutual

/-- A tree built purely from supported constructs: no element prefix, no
prefixed attribute keys (and the `IndexMap` distinct-key invariant), at every
level. -/
def Element.supported : Element → Bool
  | ⟨p, _, attrs, cs, _, _⟩ => p.isNone && attrKeysOk attrs && supportedList cs

/-- `Element.supported` on every element of a list. -/
def supportedList : List Element → Bool
  | [] => true
  | c :: cs => Element.supported c && supportedList cs

end

/-- Attribute map as rebuilt by the parser from the events `Element::write`
emits for it: each key re-inserted as a local name. -/
def canonAttrs (attrs : List (String × String)) : List (String × String) :=
  attrsToMap (attrs.map (fun kv => ⟨none, kv.fst, kv.snd⟩))

mutual

/-- The element produced by serializing and re-parsing an arbitrary element:
the prefix is dropped (`Element::write` emits only local names), attributes
are re-inserted, children canonicalized recursively, text and CDATA kept
verbatim. -/
def Element.canon : Element → Element
  | ⟨_, n, attrs, cs, t, d⟩ => ⟨none, n, canonAttrs attrs, canonList cs, t, d⟩

/-- `Element.canon` on every element of a list. -/
def canonList : List Element → List Element
  | [] => []
  | c :: cs => Element.canon c :: canonList cs

end

/-- The element the parse procedure creates for the start tag that
`Element::write` emits for `e`. -/
def initOf (e : Element) : Element :=
  fromStartTag none e.name (startAttrs e)

/-- Rebuild a single element from an event stream the way `Document::parse`
builds the root: the head event must be a start tag, whose contents are then
parsed. -/
def buildElement (events : List XmlEvent) : Except Error Element :=
  match events with
  | .startElement p n attrs :: rest =>
    match Element.parse (fromStartTag p n attrs) rest with
    | .ok (el, _) => .ok el
    | .error e => .error e
  | _ => .error .parseError

/-- The string of a character-data event. -/
def charsOf : XmlEvent → Option String
  | .characters s => some s
  | _ => none

/-- The string of a CDATA event. -/
def cdataOf : XmlEvent → Option String
  | .cdataEvent s => some s
  | _ => none

/-- The (prefix, name) identity of a start-tag event. -/
def startIdOf : XmlEvent → Option (Option String × String)
  | .startElement p n _ => some (p, n)
  | _ => none

/-- The (prefix, name) identity of an element. -/
def elemId (e : Element) : Option String × String :=
  (e.pfx, e.name)

/-- Depth-tracking scan of an event region: collect `kind`-values of the
events at nesting depth 0, counting start tags up and end tags down, and stop
at the end tag that closes depth 0.  Start tags are themselves offered to
`kind` at depth 0 before descending. -/
def topLevel {α : Type} (kind : XmlEvent → Option α) : List XmlEvent → Nat → List α
  | [], _ => []
  | ev :: rest, d =>
    match ev with
    | .startElement _ _ _ =>
      (if d = 0 then (kind ev).toList else []) ++ topLevel kind rest (d + 1)
    | .endElement _ _ =>
      if d = 0 then [] else topLevel kind rest (d - 1)
    | _ =>
      (if d = 0 then (kind ev).toList else []) ++ topLevel kind rest d

/-- Fold a list of segments into an optional accumulator exactly as the
parser's accumulation step does (`Some(text + &s)` starting from `getD ""`). -/
def accText (t : Option String) (segs : List String) : Option String :=
  segs.foldl (fun acc s => some (acc.getD ("") ++ s)) t

/-- `none` for no segments, otherwise the concatenation of all segments. -/
def optJoin : List String → Option String
  | [] => none
  | s :: rest => some (String.join (s :: rest))

/-- A conformant event source emits no end-document event before the first
root start tag (for a document with no root element it reports an error
instead, modelled as stream exhaustion). -/
def rootPrecedesEnd : List XmlEvent → Bool
  | [] => true
  | .endDocument :: _ => false
  | .startElement _ _ _ :: _ => true
  | _ :: rest => rootPrecedesEnd rest

/-- Events `Element::parse` ignores inside an element: document bounds,
processing instructions, whitespace, comments. -/
def ignorable : XmlEvent → Bool
  | .startDocument _ _ => true
  | .endDocument => true
  | .processingInstruction => true
  | .whitespace _ => true
  | .comment _ => true
  | _ => false

/-- Whether an event is a start or end tag (the two kinds that change the
nesting depth). -/
def isTag : XmlEvent → Bool
  | .startElement _ _ _ => true
  | .endElement _ _ => true
  | _ => false

/-- Concrete sample: a supported child with text and CDATA. -/
def sampleChild : Element :=
  ⟨none, ("c"), [], [], some ("t"), some ("d")⟩

/-- Concrete sample: a supported tree with an attribute and one child. -/
def sampleSupported : Element :=
  ⟨none, ("r"), [(("k"), ("v"))], [sampleChild], none, none⟩

/-- Concrete sample: `<r><a/><b/></r>` as a tree. -/
def sampleR : Element :=
  ⟨none, ("r"), [], [Element.new ("a"), Element.new ("b")], none, none⟩

/-- Concrete sample: the event stream of `<r><a/><b/></r>`. -/
def sampleREvents : List XmlEvent :=
  [.startElement none ("r") [], .startElement none ("a") [],
   .endElement none ("a"), .startElement none ("b") [],
   .endElement none ("b"), .endElement none ("r")]

/-- Concrete sample: the leaf of the deep path-query tree, with text "1". -/
def leafElem : Element :=
  ⟨none, ("leaf"), [], [], some ("1"), none⟩

/-- Concrete sample:
`<root><a><deep><tree><leaf>1</leaf></tree></deep></a></root>`. -/
def deepRoot : Element :=
  ⟨none, ("root"), [],
    [⟨none, ("a"), [],
      [⟨none, ("deep"), [],
        [⟨none, ("tree"), [], [leafElem], none, none⟩], none, none⟩],
      none, none⟩],
    none, none⟩

/-- Concrete sample: an element with a namespace prefix. -/
def samplePrefixed : Element :=
  ⟨some ("xsl"), ("for-each"), [], [], none, none⟩

/-- Concrete sample: `<root><number>2</number></root>`. -/
def numberRoot : Element :=
  ⟨none, ("root"), [], [⟨none, ("number"), [], [], some ("2"), none⟩], none, none⟩

/-- Concrete sample: two attributes in one order. -/
def elemAttrsAB : Element :=
  ⟨none, ("x"), [(("p"), ("1")), (("q"), ("2"))], [], none, none⟩

/-- Concrete sample: the same two attributes in the other order. -/
def elemAttrsBA : Element :=
  ⟨none, ("x"), [(("q"), ("2")), (("p"), ("1"))], [], none, none⟩

/-- Concrete sample: a well-formed document event stream `<r/>`. -/
def sampleDocEvents : List XmlEvent :=
  [.startElement none ("r") [], .endElement none ("r"), .endDocument]

/-- Concrete sample: the document parsed from `sampleDocEvents`. -/
def sampleDoc : Document :=
  ⟨.version10, ("UTF-8"), some ⟨none, ("r"), [], [], none, none⟩⟩

/-! ### Step lemmas for `Element.parse` -/

theorem parse_nil (self : Element) : Element.parse self [] = .error .parseError := by
  simp [Element.parse, Element.parseAux]

theorem parse_length (self : Element) (events : List XmlEvent) (result : Element)
    (rest : List XmlEvent) (h : Element.parse self events = .ok (result, rest)) :
    rest.length < events.length := by
  unfold Element.parse at h
  cases hx : Element.parseAux self events with
  | error e => rw [hx] at h; exact absurd h (by simp)
  | ok val =>
    obtain ⟨r, rest1, hlt⟩ := val
    rw [hx] at h
    simp only [Except.ok.injEq, Prod.mk.injEq] at h
    obtain ⟨-, h2⟩ := h
    exact h2 ▸ hlt

theorem parse_end (self : Element) (p : Option String) (n : String)
    (evs : List XmlEvent) :
    Element.parse self (XmlEvent.endElement p n :: evs) =
      if p = self.pfx ∧ n = self.name then .ok (self, evs)
      else .error (.panicMismatch p n) := by
  rw [Element.parse, Element.parseAux]
  by_cases h : p = self.pfx ∧ n = self.name <;> simp [h]

theorem parse_chars (self : Element) (s : String) (evs : List XmlEvent) :
    Element.parse self (XmlEvent.characters s :: evs) =
      Element.parse { self with text := some (self.text.getD ("") ++ s) } evs := by
  rw [Element.parse, Element.parseAux, Element.parse]
  cases h : Element.parseAux { self with text := some (self.text.getD ("") ++ s) } evs with
  | error e => simp [h]
  | ok val => obtain ⟨r, rest1, hlt⟩ := val; simp [h]

theorem parse_cdata (self : Element) (s : String) (evs : List XmlEvent) :
    Element.parse self (XmlEvent.cdataEvent s :: evs) =
      Element.parse { self with cdata := some (self.cdata.getD ("") ++ s) } evs := by
  rw [Element.parse, Element.parseAux, Element.parse]
  cases h : Element.parseAux { self with cdata := some (self.cdata.getD ("") ++ s) } evs with
  | error e => simp [h]
  | ok val => obtain ⟨r, rest1, hlt⟩ := val; simp [h]

theorem parse_skip (self : Element) (ev : XmlEvent) (hin : ignorable ev = true)
    (evs : List XmlEvent) :
    Element.parse self (ev :: evs) = Element.parse self evs := by
  cases ev
  case startElement p n attrs => simp [ignorable] at hin
  case endElement p n => simp [ignorable] at hin
  case characters s => simp [ignorable] at hin
  case cdataEvent s => simp [ignorable] at hin
  all_goals
    rw [Element.parse, Element.parseAux, Element.parse]
  all_goals
    cases h : Element.parseAux self evs with
    | error e => simp [h]
    | ok val => obtain ⟨r, rest1, hlt⟩ := val; simp [h]

theorem parse_start (self : Element) (p : Option String) (n : String)
    (attrs : List XAttr) (evs : List XmlEvent) :
    Element.parse self (XmlEvent.startElement p n attrs :: evs) =
      match Element.parse (fromStartTag p n attrs) evs with
      | .error e => .error e
      | .ok (child, rest1) =>
        Element.parse { self with children := self.children ++ [child] } rest1 := by
  rw [Element.parse, Element.parseAux]
  cases hx : Element.parseAux (fromStartTag p n attrs) evs with
  | error e => simp [Element.parse, hx]
  | ok val =>
    obtain ⟨r, r1, hlt⟩ := val
    simp only [hx, Element.parse]
    cases h2 : Element.parseAux { self with children := self.children ++ [r] } r1 with
    | error e => simp [h2]
    | ok val2 => obtain ⟨r2, rest2, hlt2⟩ := val2; simp [h2]

theorem parse_start_ok (self : Element) (p : Option String) (n : String)
    (attrs : List XAttr) (evs : List XmlEvent) (child : Element)
    (rest1 : List XmlEvent)
    (h : Element.parse (fromStartTag p n attrs) evs = .ok (child, rest1)) :
    Element.parse self (XmlEvent.startElement p n attrs :: evs) =
      Element.parse { self with children := self.children ++ [child] } rest1 := by
  rw [parse_start, h]

theorem parse_start_err (self : Element) (p : Option String) (n : String)
    (attrs : List XAttr) (evs : List XmlEvent) (e : Error)
    (h : Element.parse (fromStartTag p n attrs) evs = .error e) :
    Element.parse self (XmlEvent.startElement p n attrs :: evs) = .error e := by
  rw [parse_start, h]

/-! ### The depth-0 scan versus a successful parse run -/

theorem topLevel_cons_start {α : Type} (kind : XmlEvent → Option α)
    (p : Option String) (n : String) (attrs : List XAttr)
    (l : List XmlEvent) (d : Nat) :
    topLevel kind (XmlEvent.startElement p n attrs :: l) d =
      (if d = 0 then (kind (XmlEvent.startElement p n attrs)).toList else []) ++
        topLevel kind l (d + 1) := by
  simp [topLevel]

theorem topLevel_cons_end {α : Type} (kind : XmlEvent → Option α)
    (p : Option String) (n : String) (l : List XmlEvent) (d : Nat) :
    topLevel kind (XmlEvent.endElement p n :: l) d =
      if d = 0 then [] else topLevel kind l (d - 1) := by
  simp [topLevel]

theorem topLevel_cons_other {α : Type} (kind : XmlEvent → Option α)
    (ev : XmlEvent) (hev : isTag ev = false) (l : List XmlEvent) (d : Nat) :
    topLevel kind (ev :: l) d =
      (if d = 0 then (kind ev).toList else []) ++ topLevel kind l d := by
  cases ev <;> simp [isTag] at hev ⊢ <;> simp [topLevel]

theorem accText_cons (t : Option String) (s : String) (l : List String) :
    accText t (s :: l) = accText (some (t.getD ("") ++ s)) l := by
  simp [accText]

/-- Master description of a successful `Element.parse` run: the consumed
region prepends the remainder; prefix, name and attributes pass through
unchanged; text and CDATA accumulate exactly the depth-0 character/CDATA
segments of the consumed region, in stream order; the children's identities
extend the existing ones by the depth-0 start tags in stream order; and the
consumed region is balanced (scanning it from any positive depth contributes
nothing and returns to the depth below). -/
theorem parse_run (N : Nat) : ∀ (events : List XmlEvent), events.length ≤ N →
    ∀ (self result : Element) (rest : List XmlEvent),
    Element.parse self events = .ok (result, rest) →
    ∃ consumed, events = consumed ++ rest ∧
      result.pfx = self.pfx ∧ result.name = self.name ∧
      result.attributes = self.attributes ∧
      result.text = accText self.text (topLevel charsOf consumed 0) ∧
      result.cdata = accText self.cdata (topLevel cdataOf consumed 0) ∧
      result.children.map elemId =
        self.children.map elemId ++ topLevel startIdOf consumed 0 ∧
      (∀ (α : Type) (kind : XmlEvent → Option α) (tail : List XmlEvent) (d : Nat),
        topLevel kind (consumed ++ tail) (d + 1) = topLevel kind tail d) := by
  induction N with
  | zero =>
    intro events hlen self result rest h
    have : events = [] := List.length_eq_zero.mp (Nat.le_zero.mp hlen)
    subst this
    rw [parse_nil] at h
    exact absurd h (by simp)
  | succ n ih =>
    intro events hlen self result rest h
    match events with
    | [] =>
      rw [parse_nil] at h
      exact absurd h (by simp)
    | ev :: evs =>
      have hlen' : evs.length ≤ n := by simp at hlen; omega
      cases ev with
      | startElement p nm attrs =>
        rw [parse_start] at h
        cases hc : Element.parse (fromStartTag p nm attrs) evs with
        | error e => rw [hc] at h; exact absurd h (by simp)
        | ok val =>
          obtain ⟨child, rest1⟩ := val
          rw [hc] at h
          simp only [] at h
          have hlt1 : rest1.length < evs.length := parse_length _ _ _ _ hc
          obtain ⟨cC, hevs, hCp, hCn, -, -, -, -, hCbal⟩ :=
            ih evs hlen' (fromStartTag p nm attrs) child rest1 hc
          obtain ⟨c2, hrest1, h2p, h2n, h2a, h2t, h2c, h2ch, h2bal⟩ :=
            ih rest1 (by omega) _ result rest h
          refine ⟨XmlEvent.startElement p nm attrs :: (cC ++ c2), ?_, ?_, ?_, ?_, ?_, ?_, ?_, ?_⟩
          · simp [hevs, hrest1]
          · simpa using h2p
          · simpa using h2n
          · simpa using h2a
          · rw [h2t]
            rw [topLevel_cons_start]
            rw [hCbal String charsOf c2 0]
            simp [charsOf]
          · rw [h2c]
            rw [topLevel_cons_start]
            rw [hCbal String cdataOf c2 0]
            simp [cdataOf]
          · rw [h2ch]
            rw [topLevel_cons_start]
            rw [hCbal (Option String × String) startIdOf c2 0]
            have hid : elemId child = (p, nm) := by
              simp [elemId, hCp, hCn, fromStartTag]
            simp [startIdOf, hid]
          · intro α kind tail d
            rw [List.cons_append, topLevel_cons_start]
            have : (cC ++ c2) ++ tail = cC ++ (c2 ++ tail) := by simp
            rw [this, hCbal α kind (c2 ++ tail) (d + 1), h2bal α kind tail d]
            simp
      | endElement p nm =>
        rw [parse_end] at h
        by_cases hm : p = self.pfx ∧ nm = self.name
        · rw [if_pos hm] at h
          simp only [Except.ok.injEq, Prod.mk.injEq] at h
          obtain ⟨hres, hrest⟩ := h
          subst hres; subst hrest
          refine ⟨[XmlEvent.endElement p nm], by simp, rfl, rfl, rfl, ?_, ?_, ?_, ?_⟩
          · simp [topLevel_cons_end, topLevel, accText]
          · simp [topLevel_cons_end, topLevel, accText]
          · simp [topLevel_cons_end, topLevel]
          · intro α kind tail d
            rw [List.cons_append, topLevel_cons_end]
            simp
        · rw [if_neg hm] at h
          exact absurd h (by simp)
      | characters s =>
        rw [parse_chars] at h
        obtain ⟨c2, hevs, h2p, h2n, h2a, h2t, h2c, h2ch, h2bal⟩ :=
          ih evs hlen' _ result rest h
        refine ⟨XmlEvent.characters s :: c2, by simp [hevs], by simpa using h2p,
          by simpa using h2n, by simpa using h2a, ?_, ?_, by simpa using h2ch, ?_⟩
        · rw [h2t]
          rw [topLevel_cons_other charsOf _ (by simp [isTag])]
          simp [charsOf, accText_cons]
        · rw [h2c]
          rw [topLevel_cons_other cdataOf _ (by simp [isTag])]
          simp [cdataOf]
        · intro α kind tail d
          rw [List.cons_append, topLevel_cons_other kind _ (by simp [isTag])]
          simp [h2bal α kind tail d]
      | cdataEvent s =>
        rw [parse_cdata] at h
        obtain ⟨c2, hevs, h2p, h2n, h2a, h2t, h2c, h2ch, h2bal⟩ :=
          ih evs hlen' _ result rest h
        refine ⟨XmlEvent.cdataEvent s :: c2, by simp [hevs], by simpa using h2p,
          by simpa using h2n, by simpa using h2a, ?_, ?_, by simpa using h2ch, ?_⟩
        · rw [h2t]
          rw [topLevel_cons_other charsOf _ (by simp [isTag])]
          simp [charsOf]
        · rw [h2c]
          rw [topLevel_cons_other cdataOf _ (by simp [isTag])]
          simp [cdataOf, accText_cons]
        · intro α kind tail d
          rw [List.cons_append, topLevel_cons_other kind _ (by simp [isTag])]
          simp [h2bal α kind tail d]
      | startDocument v enc =>
        rw [parse_skip _ _ (by simp [ignorable])] at h
        obtain ⟨c2, hevs, h2p, h2n, h2a, h2t, h2c, h2ch, h2bal⟩ :=
          ih evs hlen' _ result rest h
        refine ⟨XmlEvent.startDocument v enc :: c2, by simp [hevs], h2p, h2n, h2a, ?_, ?_, ?_, ?_⟩
        · rw [h2t, topLevel_cons_other charsOf _ (by simp [isTag])]; simp [charsOf]
        · rw [h2c, topLevel_cons_other cdataOf _ (by simp [isTag])]; simp [cdataOf]
        · rw [h2ch, topLevel_cons_other startIdOf _ (by simp [isTag])]; simp [startIdOf]
        · intro α kind tail d
          rw [List.cons_append, topLevel_cons_other kind _ (by simp [isTag])]
          simp [h2bal α kind tail d]
      | endDocument =>
        rw [parse_skip _ _ (by simp [ignorable])] at h
        obtain ⟨c2, hevs, h2p, h2n, h2a, h2t, h2c, h2ch, h2bal⟩ :=
          ih evs hlen' _ result rest h
        refine ⟨XmlEvent.endDocument :: c2, by simp [hevs], h2p, h2n, h2a, ?_, ?_, ?_, ?_⟩
        · rw [h2t, topLevel_cons_other charsOf _ (by simp [isTag])]; simp [charsOf]
        · rw [h2c, topLevel_cons_other cdataOf _ (by simp [isTag])]; simp [cdataOf]
        · rw [h2ch, topLevel_cons_other startIdOf _ (by simp [isTag])]; simp [startIdOf]
        · intro α kind tail d
          rw [List.cons_append, topLevel_cons_other kind _ (by simp [isTag])]
          simp [h2bal α kind tail d]
      | processingInstruction =>
        rw [parse_skip _ _ (by simp [ignorable])] at h
        obtain ⟨c2, hevs, h2p, h2n, h2a, h2t, h2c, h2ch, h2bal⟩ :=
          ih evs hlen' _ result rest h
        refine ⟨XmlEvent.processingInstruction :: c2, by simp [hevs], h2p, h2n, h2a, ?_, ?_, ?_, ?_⟩
        · rw [h2t, topLevel_cons_other charsOf _ (by simp [isTag])]; simp [charsOf]
        · rw [h2c, topLevel_cons_other cdataOf _ (by simp [isTag])]; simp [cdataOf]
        · rw [h2ch, topLevel_cons_other startIdOf _ (by simp [isTag])]; simp [startIdOf]
        · intro α kind tail d
          rw [List.cons_append, topLevel_cons_other kind _ (by simp [isTag])]
          simp [h2bal α kind tail d]
      | whitespace s =>
        rw [parse_skip _ _ (by simp [ignorable])] at h
        obtain ⟨c2, hevs, h2p, h2n, h2a, h2t, h2c, h2ch, h2bal⟩ :=
          ih evs hlen' _ result rest h
        refine ⟨XmlEvent.whitespace s :: c2, by simp [hevs], h2p, h2n, h2a, ?_, ?_, ?_, ?_⟩
        · rw [h2t, topLevel_cons_other charsOf _ (by simp [isTag])]; simp [charsOf]
        · rw [h2c, topLevel_cons_other cdataOf _ (by simp [isTag])]; simp [cdataOf]
        · rw [h2ch, topLevel_cons_other startIdOf _ (by simp [isTag])]; simp [startIdOf]
        · intro α kind tail d
          rw [List.cons_append, topLevel_cons_other kind _ (by simp [isTag])]
          simp [h2bal α kind tail d]
      | comment s =>
        rw [parse_skip _ _ (by simp [ignorable])] at h
        obtain ⟨c2, hevs, h2p, h2n, h2a, h2t, h2c, h2ch, h2bal⟩ :=
          ih evs hlen' _ result rest h
        refine ⟨XmlEvent.comment s :: c2, by simp [hevs], h2p, h2n, h2a, ?_, ?_, ?_, ?_⟩
        · rw [h2t, topLevel_cons_other charsOf _ (by simp [isTag])]; simp [charsOf]
        · rw [h2c, topLevel_cons_other cdataOf _ (by simp [isTag])]; simp [cdataOf]
        · rw [h2ch, topLevel_cons_other startIdOf _ (by simp [isTag])]; simp [startIdOf]
        · intro α kind tail d
          rw [List.cons_append, topLevel_cons_other kind _ (by simp [isTag])]
          simp [h2bal α kind tail d]

/-- `parse_run` at the natural length bound. -/
theorem parse_spec (self result : Element) (events rest : List XmlEvent)
    (h : Element.parse self events = .ok (result, rest)) :
    ∃ consumed, events = consumed ++ rest ∧
      result.pfx = self.pfx ∧ result.name = self.name ∧
      result.attributes = self.attributes ∧
      result.text = accText self.text (topLevel charsOf consumed 0) ∧
      result.cdata = accText self.cdata (topLevel cdataOf consumed 0) ∧
      result.children.map elemId =
        self.children.map elemId ++ topLevel startIdOf consumed 0 ∧
      (∀ (α : Type) (kind : XmlEvent → Option α) (tail : List XmlEvent) (d : Nat),
        topLevel kind (consumed ++ tail) (d + 1) = topLevel kind tail d) :=
  parse_run events.length events le_rfl self result rest h

/-! ### Re-parsing a serialized element -/

theorem elementEta (e : Element) :
    Element.mk e.pfx e.name e.attributes e.children e.text e.cdata = e := by
  cases e
  rfl

theorem write_eq (E : Element) :
    Element.write E =
      XmlEvent.startElement none E.name (startAttrs E) :: bodyEvents E := by
  obtain ⟨p, n, ats, cs, t, d⟩ := E
  simp [Element.write, bodyEvents, startAttrs]

theorem parse_opt_chars (p : Option String) (n : String)
    (ats : List (String × String)) (cs : List Element) (d : Option String)
    (t : Option String) (k : List XmlEvent) :
    Element.parse ⟨p, n, ats, cs, none, d⟩ (optEvent XmlEvent.characters t ++ k) =
      Element.parse ⟨p, n, ats, cs, t, d⟩ k := by
  cases t with
  | none => simp [optEvent]
  | some s => simp [optEvent, parse_chars]

theorem parse_opt_cdata (p : Option String) (n : String)
    (ats : List (String × String)) (cs : List Element) (t : Option String)
    (d : Option String) (k : List XmlEvent) :
    Element.parse ⟨p, n, ats, cs, t, none⟩ (optEvent XmlEvent.cdataEvent d ++ k) =
      Element.parse ⟨p, n, ats, cs, t, d⟩ k := by
  cases d with
  | none => simp [optEvent]
  | some s => simp [optEvent, parse_cdata]

theorem parse_write_child (E : Element)
    (hB : ∀ rest, Element.parse (initOf E) (bodyEvents E ++ rest) =
      .ok (Element.canon E, rest)) :
    ∀ (self : Element) (rest : List XmlEvent),
      Element.parse self (Element.write E ++ rest) =
        Element.parse { self with children := self.children ++ [Element.canon E] } rest := by
  intro self rest
  rw [write_eq, List.cons_append]
  exact parse_start_ok self none E.name (startAttrs E) (bodyEvents E ++ rest) _ _ (hB rest)

theorem parse_writeList (cs : List Element)
    (hA : ∀ c ∈ cs, ∀ (self : Element) (rest : List XmlEvent),
      Element.parse self (Element.write c ++ rest) =
        Element.parse { self with children := self.children ++ [Element.canon c] } rest) :
    ∀ (self : Element) (rest : List XmlEvent),
      Element.parse self (writeList cs ++ rest) =
        Element.parse { self with children := self.children ++ canonList cs } rest := by
  induction cs with
  | nil =>
    intro self rest
    simp only [writeList, canonList, List.nil_append, List.append_nil]
    rw [elementEta]
  | cons c cs ihl =>
    intro self rest
    rw [writeList, List.append_assoc]
    rw [hA c (by simp) self (writeList cs ++ rest)]
    rw [ihl (fun c' hc' => hA c' (by simp [hc'])) _ rest]
    simp [canonList]

theorem parse_body (N : Nat) : ∀ (E : Element), sizeOf E ≤ N →
    ∀ (rest : List XmlEvent),
    Element.parse (initOf E) (bodyEvents E ++ rest) = .ok (Element.canon E, rest) := by
  induction N with
  | zero =>
    intro E hE
    obtain ⟨p, n, ats, cs, t, d⟩ := E
    simp at hE
  | succ nn ih =>
    intro E hE rest
    obtain ⟨p, n, ats, cs, t, d⟩ := E
    have hchild : ∀ c ∈ cs, sizeOf c ≤ nn := by
      intro c hc
      have h1 : sizeOf c < sizeOf cs := List.sizeOf_lt_of_mem hc
      simp at hE
      omega
    have hA : ∀ c ∈ cs, ∀ (self : Element) (rest2 : List XmlEvent),
        Element.parse self (Element.write c ++ rest2) =
          Element.parse { self with children := self.children ++ [Element.canon c] } rest2 :=
      fun c hc => parse_write_child c (fun r => ih c (hchild c hc) r)
    show Element.parse ⟨none, n, attrsToMap (startAttrs ⟨p, n, ats, cs, t, d⟩), [], none, none⟩
      ((optEvent XmlEvent.characters t ++ optEvent XmlEvent.cdataEvent d ++
        writeList cs ++ [XmlEvent.endElement none n]) ++ rest) = _
    rw [List.append_assoc, List.append_assoc, List.append_assoc]
    rw [parse_opt_chars]
    rw [parse_opt_cdata]
    rw [parse_writeList cs hA]
    show Element.parse ⟨none, n, _, [] ++ canonList cs, t, d⟩
      (XmlEvent.endElement none n :: rest) = _
    rw [parse_end]
    simp [Element.canon, canonAttrs, startAttrs]

theorem parse_body_spec (E : Element) : ∀ (rest : List XmlEvent),
    Element.parse (initOf E) (bodyEvents E ++ rest) = .ok (Element.canon E, rest) :=
  parse_body (sizeOf E) E le_rfl

theorem parse_write_elem (E : Element) :
    ∀ (self : Element) (rest : List XmlEvent),
      Element.parse self (Element.write E ++ rest) =
        Element.parse { self with children := self.children ++ [Element.canon E] } rest :=
  parse_write_child E (parse_body_spec E)

/-- Serializing any element and rebuilding it with the parse procedure always
succeeds and yields its canonicalization. -/
theorem buildElement_write (E : Element) :
    buildElement (Element.write E) = .ok (Element.canon E) := by
  rw [write_eq]
  have h := parse_body_spec E []
  rw [List.append_nil] at h
  simp only [buildElement]
  rw [show fromStartTag none E.name (startAttrs E) = initOf E from rfl, h]

/-! ### Canonicalization is the identity on supported trees -/

theorem attrsToMap_local_aux : ∀ (ats m : List (String × String)),
    keysDistinct (ats.map Prod.fst) = true →
    (∀ kv ∈ ats, mapHasKey m kv.fst = false) →
    List.foldl (fun acc a => mapInsert acc (attrKey a) a.value) m
      (ats.map (fun kv => ⟨none, kv.fst, kv.snd⟩)) = m ++ ats := by
  intro ats
  induction ats with
  | nil => intro m _ _; simp
  | cons kv ats ihm =>
    intro m hdist hdisj
    obtain ⟨k, v⟩ := kv
    simp only [List.map_cons, List.foldl_cons]
    have hk : mapHasKey m k = false := hdisj (k, v) (by simp)
    have hins : mapInsert m (attrKey ⟨none, k, v⟩) v = m ++ [(k, v)] := by
      simp [mapInsert, attrKey, hk]
    rw [hins]
    simp only [keysDistinct, List.map_cons, Bool.and_eq_true, Bool.not_eq_true'] at hdist
    obtain ⟨hknot, hdist'⟩ := hdist
    have hdisj' : ∀ kv' ∈ ats, mapHasKey (m ++ [(k, v)]) kv'.fst = false := by
      intro kv' hkv'
      have h1 : mapHasKey m kv'.fst = false := hdisj kv' (by simp [hkv'])
      have h2 : kv'.fst ≠ k := by
        intro hEq
        have : (ats.map Prod.fst).contains k = true := by
          rw [← hEq]
          simp only [List.elem_eq_mem]
          exact decide_eq_true (List.mem_map_of_mem Prod.fst hkv')
        rw [this] at hknot
        exact absurd hknot (by simp)
      simp only [mapHasKey, List.map_append, List.elem_eq_mem, List.mem_append,
        decide_eq_false_iff_not] at h1 ⊢
      simp only [not_or]
      exact ⟨h1, by simp [h2]⟩
    rw [ihm (m ++ [(k, v)]) hdist' hdisj']
    simp

theorem canonAttrs_of_distinct (ats : List (String × String))
    (h : keysDistinct (ats.map Prod.fst) = true) : canonAttrs ats = ats := by
  have := attrsToMap_local_aux ats [] h (fun kv _ => rfl)
  simpa [canonAttrs, attrsToMap] using this

theorem canon_eq_self_aux (N : Nat) : ∀ (E : Element), sizeOf E ≤ N →
    Element.supported E = true → Element.canon E = E := by
  induction N with
  | zero =>
    intro E hE
    obtain ⟨p, n, ats, cs, t, d⟩ := E
    simp at hE
  | succ nn ih =>
    intro E hE hsup
    obtain ⟨p, n, ats, cs, t, d⟩ := E
    have hchild : ∀ c ∈ cs, sizeOf c ≤ nn := by
      intro c hc
      have h1 : sizeOf c < sizeOf cs := List.sizeOf_lt_of_mem hc
      simp at hE
      omega
    simp only [Element.supported, Bool.and_eq_true] at hsup
    obtain ⟨⟨hp, hak⟩, hcs⟩ := hsup
    have hdist : keysDistinct (ats.map Prod.fst) = true := by
      simp only [attrKeysOk, Bool.and_eq_true] at hak
      exact hak.1
    have hlist : ∀ (cs' : List Element), (∀ c ∈ cs', sizeOf c ≤ nn) →
        supportedList cs' = true → canonList cs' = cs' := by
      intro cs'
      induction cs' with
      | nil => intro _ _; rfl
      | cons c cs' ihl =>
        intro hsz hsl
        simp only [supportedList, Bool.and_eq_true] at hsl
        rw [canonList, ih c (hsz c (by simp)) hsl.1,
          ihl (fun c' hc' => hsz c' (by simp [hc'])) hsl.2]
    have hpn : p = none := by
      cases p with
      | none => rfl
      | some q => simp at hp
    rw [Element.canon, canonAttrs_of_distinct ats hdist, hlist cs hchild hcs, hpn]

theorem canon_eq_self (E : Element) (h : Element.supported E = true) :
    Element.canon E = E :=
  canon_eq_self_aux (sizeOf E) E le_rfl h

/-! ### Text accumulation versus concatenation -/

theorem strFoldlAppend (a b : String) : ∀ (l : List String),
    l.foldl (fun r s => r ++ s) (a ++ b) = a ++ l.foldl (fun r s => r ++ s) b := by
  intro l
  induction l generalizing b with
  | nil => simp
  | cons c l ih =>
    simp only [List.foldl_cons]
    rw [String.append_assoc, ih (b ++ c)]

theorem stringJoin_cons (s : String) (l : List String) :
    String.join (s :: l) = s ++ String.join l := by
  simp only [String.join, List.foldl_cons]
  have h1 : ("" : String) ++ s = s := by simp
  have h2 : s = s ++ ("" : String) := by simp
  rw [h1]
  conv_lhs => rw [h2]
  exact strFoldlAppend s ("") l

theorem accText_some (a : String) : ∀ (l : List String),
    accText (some a) l = some (a ++ String.join l) := by
  intro l
  induction l generalizing a with
  | nil => simp [accText, String.join]
  | cons s l ih =>
    rw [accText_cons]
    simp only [Option.getD_some]
    rw [ih (a ++ s), stringJoin_cons, String.append_assoc]

theorem accText_none (l : List String) : accText none l = optJoin l := by
  cases l with
  | nil => rfl
  | cons s l =>
    rw [accText_cons]
    simp only [Option.getD_none]
    rw [accText_some, optJoin]
    simp [stringJoin_cons]

/-! ### Step lemmas for `Document.parseEvents` -/

theorem docEvents_nil (doc : Document) :
    Document.parseEvents doc [] = .error .parseError := by
  rw [Document.parseEvents]

theorem docEvents_startDoc (doc : Document) (v : XmlVersion) (enc : String)
    (evs : List XmlEvent) :
    Document.parseEvents doc (XmlEvent.startDocument v enc :: evs) =
      Document.parseEvents { doc with version := v, encoding := enc } evs := by
  rw [Document.parseEvents]

theorem docEvents_endDoc (doc : Document) (evs : List XmlEvent) :
    Document.parseEvents doc (XmlEvent.endDocument :: evs) = .ok doc := by
  rw [Document.parseEvents]

theorem docEvents_start (doc : Document) (p : Option String) (n : String)
    (attrs : List XAttr) (evs : List XmlEvent) :
    Document.parseEvents doc (XmlEvent.startElement p n attrs :: evs) =
      match Element.parse (fromStartTag p n attrs) evs with
      | .error e => .error e
      | .ok (root, rest1) =>
        Document.parseEvents { doc with root := some root } rest1 := by
  rw [Document.parseEvents]
  cases hx : Element.parseAux (fromStartTag p n attrs) evs with
  | error e => simp [Element.parse, hx]
  | ok val =>
    obtain ⟨r, r1, hlt⟩ := val
    simp [Element.parse, hx]

/-- Events the document loop's wildcard arm discards. -/
def docSkipped : XmlEvent → Bool
  | .endElement _ _ => true
  | .characters _ => true
  | .cdataEvent _ => true
  | .processingInstruction => true
  | .whitespace _ => true
  | .comment _ => true
  | _ => false

theorem docEvents_skip (doc : Document) (ev : XmlEvent)
    (h : docSkipped ev = true) (evs : List XmlEvent) :
    Document.parseEvents doc (ev :: evs) = Document.parseEvents doc evs := by
  cases ev
  case startDocument v enc => simp [docSkipped] at h
  case startElement p n attrs => simp [docSkipped] at h
  case endDocument => simp [docSkipped] at h
  all_goals rw [Document.parseEvents]
  all_goals (intros; simp_all)

theorem docEvents_root_some (N : Nat) : ∀ (events : List XmlEvent),
    events.length ≤ N → ∀ (doc d : Document), doc.root.isSome = true →
    Document.parseEvents doc events = .ok d → d.root.isSome = true := by
  induction N with
  | zero =>
    intro events hlen doc d _ h
    have : events = [] := List.length_eq_zero.mp (Nat.le_zero.mp hlen)
    subst this
    rw [docEvents_nil] at h
    exact absurd h (by simp)
  | succ n ih =>
    intro events hlen doc d hsome h
    match events with
    | [] =>
      rw [docEvents_nil] at h
      exact absurd h (by simp)
    | ev :: evs =>
      have hlen' : evs.length ≤ n := by simp at hlen; omega
      cases ev with
      | startDocument v enc =>
        rw [docEvents_startDoc] at h
        exact ih evs hlen' _ d (by simpa using hsome) h
      | endDocument =>
        rw [docEvents_endDoc] at h
        simp only [Except.ok.injEq] at h
        subst h
        exact hsome
      | startElement p nm attrs =>
        rw [docEvents_start] at h
        cases hx : Element.parse (fromStartTag p nm attrs) evs with
        | error e => rw [hx] at h; exact absurd h (by simp)
        | ok val =>
          obtain ⟨root, rest1⟩ := val
          rw [hx] at h
          simp only [] at h
          have hlt1 : rest1.length < evs.length := parse_length _ _ _ _ hx
          exact ih rest1 (by omega) _ d (by simp) h
      | endElement p nm =>
        rw [docEvents_skip _ _ (by simp [docSkipped])] at h
        exact ih evs hlen' _ d hsome h
      | characters s =>
        rw [docEvents_skip _ _ (by simp [docSkipped])] at h
        exact ih evs hlen' _ d hsome h
      | cdataEvent s =>
        rw [docEvents_skip _ _ (by simp [docSkipped])] at h
        exact ih evs hlen' _ d hsome h
      | processingInstruction =>
        rw [docEvents_skip _ _ (by simp [docSkipped])] at h
        exact ih evs hlen' _ d hsome h
      | whitespace s =>
        rw [docEvents_skip _ _ (by simp [docSkipped])] at h
        exact ih evs hlen' _ d hsome h
      | comment s =>
        rw [docEvents_skip _ _ (by simp [docSkipped])] at h
        exact ih evs hlen' _ d hsome h

theorem docEvents_root_of_precedes (N : Nat) : ∀ (events : List XmlEvent),
    events.length ≤ N → rootPrecedesEnd events = true →
    ∀ (doc d : Document), Document.parseEvents doc events = .ok d →
    d.root.isSome = true := by
  induction N with
  | zero =>
    intro events hlen _ doc d h
    have : events = [] := List.length_eq_zero.mp (Nat.le_zero.mp hlen)
    subst this
    rw [docEvents_nil] at h
    exact absurd h (by simp)
  | succ n ih =>
    intro events hlen hpre doc d h
    match events with
    | [] =>
      rw [docEvents_nil] at h
      exact absurd h (by simp)
    | ev :: evs =>
      have hlen' : evs.length ≤ n := by simp at hlen; omega
      cases ev with
      | startDocument v enc =>
        rw [docEvents_startDoc] at h
        exact ih evs hlen' (by simpa [rootPrecedesEnd] using hpre) _ d h
      | endDocument => simp [rootPrecedesEnd] at hpre
      | startElement p nm attrs =>
        rw [docEvents_start] at h
        cases hx : Element.parse (fromStartTag p nm attrs) evs with
        | error e => rw [hx] at h; exact absurd h (by simp)
        | ok val =>
          obtain ⟨root, rest1⟩ := val
          rw [hx] at h
          simp only [] at h
          have hlt1 : rest1.length < evs.length := parse_length _ _ _ _ hx
          exact docEvents_root_some rest1.length rest1 le_rfl _ d (by simp) h
      | endElement p nm =>
        rw [docEvents_skip _ _ (by simp [docSkipped])] at h
        exact ih evs hlen' (by simpa [rootPrecedesEnd] using hpre) _ d h
      | characters s =>
        rw [docEvents_skip _ _ (by simp [docSkipped])] at h
        exact ih evs hlen' (by simpa [rootPrecedesEnd] using hpre) _ d h
      | cdataEvent s =>
        rw [docEvents_skip _ _ (by simp [docSkipped])] at h
        exact ih evs hlen' (by simpa [rootPrecedesEnd] using hpre) _ d h
      | processingInstruction =>
        rw [docEvents_skip _ _ (by simp [docSkipped])] at h
        exact ih evs hlen' (by simpa [rootPrecedesEnd] using hpre) _ d h
      | whitespace s =>
        rw [docEvents_skip _ _ (by simp [docSkipped])] at h
        exact ih evs hlen' (by simpa [rootPrecedesEnd] using hpre) _ d h
      | comment s =>
        rw [docEvents_skip _ _ (by simp [docSkipped])] at h
        exact ih evs hlen' (by simpa [rootPrecedesEnd] using hpre) _ d h

/-! ### Order-independent map equality -/

theorem mapGet_eq_some_mem (m : List (String × String)) (k v : String)
    (h : mapGet m k = some v) : (k, v) ∈ m := by
  simp only [mapGet, Option.map_eq_some'] at h
  obtain ⟨kv, hfind, hsnd⟩ := h
  have hmem := List.mem_of_find?_eq_some hfind
  have hpred := List.find?_some hfind
  simp only [decide_eq_true_eq] at hpred
  have hkv : kv = (k, v) := by
    obtain ⟨k0, v0⟩ := kv
    simp_all
  rwa [hkv] at hmem

theorem keyVal_unique (m : List (String × String))
    (hm : (m.map Prod.fst).Nodup) (k v v' : String)
    (h1 : (k, v) ∈ m) (h2 : (k, v') ∈ m) : v = v' := by
  induction m with
  | nil => simp at h1
  | cons kv m ih =>
    simp only [List.map_cons, List.nodup_cons] at hm
    obtain ⟨hknot, hm'⟩ := hm
    rcases List.mem_cons.mp h1 with h1a | h1b
    · rcases List.mem_cons.mp h2 with h2a | h2b
      · have h3 := h1a.trans h2a.symm
        simp at h3
        exact h3
      · exfalso
        have hk : k ∈ m.map Prod.fst := by
          have := List.mem_map_of_mem Prod.fst h2b
          simpa using this
        rw [← h1a] at hknot
        exact hknot hk
    · rcases List.mem_cons.mp h2 with h2a | h2b
      · exfalso
        have hk : k ∈ m.map Prod.fst := by
          have := List.mem_map_of_mem Prod.fst h1b
          simpa using this
        rw [← h2a] at hknot
        exact hknot hk
      · exact ih hm' h1b h2b

theorem mem_mapGet (m : List (String × String)) (hm : (m.map Prod.fst).Nodup)
    (k v : String) (h : (k, v) ∈ m) : mapGet m k = some v := by
  cases hfind : m.find? (fun kv => kv.fst = k) with
  | none =>
    exfalso
    have := List.find?_eq_none.mp hfind (k, v) h
    simp at this
  | some kv =>
    have hmem := List.mem_of_find?_eq_some hfind
    have hpred := List.find?_some hfind
    simp only [decide_eq_true_eq] at hpred
    obtain ⟨k0, v0⟩ := kv
    have hk0 : k0 = k := hpred
    subst hk0
    have hv : v0 = v := keyVal_unique m hm k0 v0 v hmem h
    subst hv
    simp [mapGet, hfind]

theorem mapEq_iff_toFinset (a b : List (String × String))
    (ha : (a.map Prod.fst).Nodup) (hb : (b.map Prod.fst).Nodup) :
    mapEq a b = true ↔ a.toFinset = b.toFinset := by
  constructor
  · intro h
    simp only [mapEq, Bool.and_eq_true, beq_iff_eq, List.all_eq_true] at h
    obtain ⟨hlen, hall⟩ := h
    have hsub : ∀ kv ∈ a, kv ∈ b := by
      intro kv hkv
      have h1 := hall kv hkv
      have h2 := mapGet_eq_some_mem b kv.fst kv.snd h1
      simpa using h2
    have hsubF : a.toFinset ⊆ b.toFinset := by
      intro x hx
      rw [List.mem_toFinset] at hx ⊢
      exact hsub x hx
    apply Finset.eq_of_subset_of_card_le hsubF
    rw [List.toFinset_card_of_nodup ha.of_map, List.toFinset_card_of_nodup hb.of_map]
    omega
  · intro h
    have hmem : ∀ kv : String × String, kv ∈ a ↔ kv ∈ b := by
      intro kv
      rw [← List.mem_toFinset, ← List.mem_toFinset, h]
    have hlen : a.length = b.length := by
      have hc := congrArg Finset.card h
      rwa [List.toFinset_card_of_nodup ha.of_map,
        List.toFinset_card_of_nodup hb.of_map] at hc
    simp only [mapEq, Bool.and_eq_true, beq_iff_eq, List.all_eq_true]
    refine ⟨hlen, ?_⟩
    intro kv hkv
    have hkvb : kv ∈ b := (hmem kv).mp hkv
    exact mem_mapGet b hb kv.fst kv.snd (by simpa using hkvb)

theorem elemListEq_iff_forall2 : ∀ (xs ys : List Element),
    elemListEq xs ys = true ↔
      List.Forall₂ (fun x y => Element.eq x y = true) xs ys := by
  intro xs
  induction xs with
  | nil =>
    intro ys
    cases ys with
    | nil => simp [elemListEq]
    | cons y ys => simp [elemListEq]
  | cons x xs ih =>
    intro ys
    cases ys with
    | nil => simp [elemListEq]
    | cons y ys =>
      simp [elemListEq, List.forall₂_cons, Bool.and_eq_true, ih ys]

/-! ### The claims -/

/-- C1: for every tree E built purely from supported constructs (name,
attributes, text, cdata, children; no element prefix and no prefixed
attribute keys), serializing E to an event stream with `Element::write` and
rebuilding it with the parse procedure yields an `Element` equal (hence
deep-equal) to E. -/
theorem c1_round_trip (E : Element) (h : Element.supported E = true) :
    buildElement (Element.write E) = .ok E := by
  rw [buildElement_write, canon_eq_self E h]

/-- Witness for C1 at a concrete supported tree. -/
theorem c1_round_trip_witness :
    Element.supported sampleSupported = true ∧
      buildElement (Element.write sampleSupported) = .ok sampleSupported := by
  have hs : Element.supported sampleSupported = true := by
    simp [sampleSupported, sampleChild, Element.supported, supportedList,
      attrKeysOk, keysDistinct]
  exact ⟨hs, c1_round_trip sampleSupported hs⟩

/-- C2 (counterexample): over raw event streams the claim's universal
statement fails — the stream consisting of a bare end-document event parses
successfully to the default document, whose root is `none`.  (No conformant
lexer produces such a stream: `xml-rs` reports an error, not end-document,
for a document with no root element.) -/
theorem c2_counterexample :
    Document.parse [XmlEvent.endDocument] = .ok defaultDocument ∧
      defaultDocument.root = none := by
  constructor
  · rw [Document.parse, docEvents_endDoc]
  · rfl

/-- C2 (amended): for every event stream in which no end-document event
precedes the first root start tag — which a conformant source guarantees —
a successful `Document::parse` yields a document with `root = some _`; and
parsing an empty stream, or a declaration-only stream (whose conformant
event rendering ends in a reader error, modelled as exhaustion), fails. -/
theorem c2_root_after_success :
    (∀ (events : List XmlEvent) (d : Document),
      rootPrecedesEnd events = true → Document.parse events = .ok d →
      d.root.isSome = true)
    ∧ Document.parse [] = .error .parseError
    ∧ (∀ (v : XmlVersion) (enc : String),
      Document.parse [XmlEvent.startDocument v enc] = .error .parseError) := by
  refine ⟨?_, ?_, ?_⟩
  · intro events d hpre h
    exact docEvents_root_of_precedes events.length events le_rfl hpre _ d h
  · rw [Document.parse, docEvents_nil]
  · intro v enc
    rw [Document.parse, docEvents_startDoc, docEvents_nil]

/-- Witness for C2 on a concrete conformant stream. -/
theorem c2_root_after_success_witness :
    rootPrecedesEnd sampleDocEvents = true ∧
      Document.parse sampleDocEvents = .ok sampleDoc ∧
      sampleDoc.root.isSome = true := by
  have hparse : Document.parse sampleDocEvents = .ok sampleDoc := by
    simp [Document.parse, Document.parseEvents, Element.parseAux, fromStartTag,
      attrsToMap, defaultDocument, sampleDoc, sampleDocEvents]
  exact ⟨rfl, hparse, (c2_root_after_success).1 sampleDocEvents sampleDoc rfl hparse⟩

/-- C3: a build in progress, upon an end-tag event, returns the completed
element exactly when the end tag's (prefix, name) equals the element's
(prefix, name), case-sensitively (string equality); on any mismatch it fails
(the Rust `panic!`, modelled as the `panicMismatch` failure outcome) rather
than returning an element or attempting repair. -/
theorem c3_end_tag_match (self : Element) (p : Option String) (nm : String)
    (rest : List XmlEvent) :
    (Element.parse self (XmlEvent.endElement p nm :: rest) = .ok (self, rest) ↔
      (p = self.pfx ∧ nm = self.name))
    ∧ (¬(p = self.pfx ∧ nm = self.name) →
      Element.parse self (XmlEvent.endElement p nm :: rest) =
        .error (.panicMismatch p nm)) := by
  constructor
  · rw [parse_end]
    by_cases h : p = self.pfx ∧ nm = self.name
    · simp [h]
    · simp [h]
  · intro h
    rw [parse_end, if_neg h]

/-- Witness for C3: a matching close returns the element, a mismatched close
fails. -/
theorem c3_end_tag_match_witness :
    Element.parse (Element.new ("r")) [XmlEvent.endElement none ("r")] =
      .ok (Element.new ("r"), []) ∧
    Element.parse (Element.new ("r")) [XmlEvent.endElement none ("z")] =
      .error (.panicMismatch none ("z")) := by
  constructor
  · exact (c3_end_tag_match (Element.new ("r")) none ("r") []).1.mpr ⟨rfl, rfl⟩
  · exact (c3_end_tag_match (Element.new ("r")) none ("z") []).2 (by decide)

/-- C4: for an element built between an open and its matching close tag
(accumulators starting empty), the resulting `text` is `some` of the
concatenation, in stream order, of exactly the depth-0 character-data
segments of the consumed region (`none` if there are none), and `cdata`
likewise of exactly the depth-0 CDATA segments; segments inside nested
children (depth > 0) never enter, and the two kinds never mix. -/
theorem c4_text_cdata_accumulation (self result : Element)
    (events rest : List XmlEvent)
    (ht : self.text = none) (hc : self.cdata = none)
    (h : Element.parse self events = .ok (result, rest)) :
    ∃ consumed, events = consumed ++ rest ∧
      result.text = optJoin (topLevel charsOf consumed 0) ∧
      result.cdata = optJoin (topLevel cdataOf consumed 0) := by
  obtain ⟨consumed, h1, -, -, -, h5, h6, -, -⟩ := parse_spec self result events rest h
  refine ⟨consumed, h1, ?_, ?_⟩
  · rw [h5, ht, accText_none]
  · rw [h6, hc, accText_none]

/-- Witness for C4 on a concrete run with one text and one CDATA segment. -/
theorem c4_text_cdata_accumulation_witness :
    ∃ consumed,
      ([XmlEvent.characters ("x"), XmlEvent.cdataEvent ("y"),
        XmlEvent.endElement none ("root")] : List XmlEvent) = consumed ++ [] ∧
      (⟨none, ("root"), [], [], some ("x"), some ("y")⟩ : Element).text =
        optJoin (topLevel charsOf consumed 0) ∧
      (⟨none, ("root"), [], [], some ("x"), some ("y")⟩ : Element).cdata =
        optJoin (topLevel cdataOf consumed 0) := by
  have hparse : Element.parse (Element.new ("root"))
      [XmlEvent.characters ("x"), XmlEvent.cdataEvent ("y"),
       XmlEvent.endElement none ("root")] =
      .ok (⟨none, ("root"), [], [], some ("x"), some ("y")⟩, []) := by
    rw [parse_chars, parse_cdata, parse_end]
    simp [Element.new, defaultElement]
  exact c4_text_cdata_accumulation _ _ _ _ rfl rfl hparse

/-- C5: children are appended in document order — the identities of the
built children extend the existing ones by exactly the depth-0 start tags of
the consumed region, in stream order; building `<r><a/><b/></r>` yields
children `[a, b]`; and `Element::write` emits the attributes on the start
tag in stored order. -/
theorem c5_order_preservation :
    (∀ (self result : Element) (events rest : List XmlEvent),
      Element.parse self events = .ok (result, rest) →
      ∃ consumed, events = consumed ++ rest ∧
        result.children.map elemId =
          self.children.map elemId ++ topLevel startIdOf consumed 0)
    ∧ buildElement sampleREvents = .ok sampleR
    ∧ (∀ e : Element, Element.write e =
        XmlEvent.startElement none e.name (startAttrs e) :: bodyEvents e) := by
  refine ⟨?_, ?_, write_eq⟩
  · intro self result events rest h
    obtain ⟨consumed, h1, -, -, -, -, -, h7, -⟩ := parse_spec self result events rest h
    exact ⟨consumed, h1, h7⟩
  · have hw : Element.write sampleR = sampleREvents := by
      simp [sampleR, sampleREvents, Element.write, writeList, optEvent,
        Element.new, defaultElement, startAttrs]
    have h := buildElement_write sampleR
    rw [hw] at h
    rw [h]
    simp [Element.canon, sampleR, canonList, canonAttrs, attrsToMap,
      Element.new, defaultElement]

/-- Witness for C5 on a concrete run building one child. -/
theorem c5_order_preservation_witness :
    ∃ consumed,
      ([XmlEvent.startElement none ("a") [], XmlEvent.endElement none ("a"),
        XmlEvent.endElement none ("r")] : List XmlEvent) = consumed ++ [] ∧
      (⟨none, ("r"), [], [⟨none, ("a"), [], [], none, none⟩], none, none⟩ :
        Element).children.map elemId =
        (Element.new ("r")).children.map elemId ++
          topLevel startIdOf consumed 0 := by
  have h1 : Element.parse (fromStartTag none ("a") [])
      [XmlEvent.endElement none ("a"), XmlEvent.endElement none ("r")] =
      .ok (⟨none, ("a"), [], [], none, none⟩, [XmlEvent.endElement none ("r")]) := by
    rw [parse_end]
    simp [fromStartTag, attrsToMap]
  have hparse : Element.parse (Element.new ("r"))
      [XmlEvent.startElement none ("a") [], XmlEvent.endElement none ("a"),
       XmlEvent.endElement none ("r")] =
      .ok (⟨none, ("r"), [], [⟨none, ("a"), [], [], none, none⟩], none, none⟩, []) := by
    rw [parse_start_ok _ _ _ _ _ _ _ h1, parse_end]
    simp [Element.new, defaultElement]
  exact (c5_order_preservation).1 _ _ _ _ hparse

/-- C6 (counterexample): `find` with the empty string does not return the
starting element — Rust `"".split('/')` yields one empty segment, so the
lookup searches for a child named the empty string and fails with
`ElementNotFound("")` on an element without such a child. -/
theorem c6_counterexample :
    (Element.new ("root")).find ("") = .error (.elementNotFound ("")) := rfl

/-- C6 (amended): a path of zero segments resolves, inside `find_path`, to
the starting element itself; but `find(E, "")` passes the single empty
segment produced by splitting, so it resolves that empty-string tag name
against E's children instead of returning E. -/
theorem c6_empty_path (E : Element) :
    (∀ orig : String, Element.findPath [] orig E = .ok E) ∧
      E.find ("") = Element.findPath [("")] ("") E := by
  constructor
  · intro orig
    rfl
  · rfl

/-- C7: path resolution descends, segment by segment, into the first direct
child (in child order, via `List.find?`) whose name equals the segment; a
failed lookup at any depth reports `ElementNotFound` carrying the original
full path, never a suffix; and the spec's concrete examples hold. -/
theorem c7_path_descent :
    (∀ (segs : List String) (orig : String) (tree : Element) (err : Error),
      Element.findPath segs orig tree = .error err → err = .elementNotFound orig)
    ∧ (∀ (E : Element) (path : String) (err : Error),
      E.find path = .error err → err = .elementNotFound path)
    ∧ (∀ (seg : String) (restPath : List String) (orig : String) (tree c : Element),
      tree.findChild (fun t => t.name = seg) = some c →
      Element.findPath (seg :: restPath) orig tree =
        Element.findPath restPath orig c)
    ∧ (∀ (seg : String) (restPath : List String) (orig : String) (tree : Element),
      tree.findChild (fun t => t.name = seg) = none →
      Element.findPath (seg :: restPath) orig tree =
        .error (.elementNotFound orig))
    ∧ (∀ (tree : Element) (pred : Element → Bool),
      tree.findChild pred = tree.children.find? pred)
    ∧ deepRoot.find ("a/deep/tree/leaf") = .ok leafElem
    ∧ leafElem.text = some ("1")
    ∧ deepRoot.find ("z") = .error (.elementNotFound ("z")) := by
  have hfp : ∀ (segs : List String) (orig : String) (tree : Element) (err : Error),
      Element.findPath segs orig tree = .error err →
      err = .elementNotFound orig := by
    intro segs
    induction segs with
    | nil =>
      intro orig tree err h
      simp [Element.findPath] at h
    | cons seg restPath ih =>
      intro orig tree err h
      cases hx : tree.findChild (fun t => t.name = seg) with
      | some c =>
        simp only [Element.findPath, hx] at h
        exact ih orig c err h
      | none =>
        simp only [Element.findPath, hx, Except.error.injEq] at h
        exact h.symm
  refine ⟨hfp, ?_, ?_, ?_, ?_, rfl, rfl, rfl⟩
  · intro E path err h
    exact hfp _ path E err h
  · intro seg restPath orig tree c hx
    simp [Element.findPath, hx]
  · intro seg restPath orig tree hx
    simp [Element.findPath, hx]
  · intro tree pred
    rfl

/-- Witness for C7: a failed lookup reports the original path. -/
theorem c7_path_descent_witness :
    Element.findPath [("z")] ("z") (Element.new ("root")) =
      .error (.elementNotFound ("z")) :=
  (c7_path_descent).2.2.2.1 ("z") [] ("z") (Element.new ("root")) rfl

/-- C8: `find_value` first resolves the path, propagating its error; with no
text on the resolved element it returns `Ok(None)`; with text that converts
it returns `Ok(Some value)`; with text that does not convert it fails with
`ValueFromStr` carrying that text. -/
theorem c8_find_value (T : Type) (fromStr : String → Option T) (E : Element)
    (path : String) :
    (∀ err : Error, E.find path = .error err →
      E.findValue fromStr path = .error err)
    ∧ (∀ el : Element, E.find path = .ok el → el.text = none →
      E.findValue fromStr path = .ok none)
    ∧ (∀ (el : Element) (t : String) (v : T), E.find path = .ok el →
      el.text = some t → fromStr t = some v →
      E.findValue fromStr path = .ok (some v))
    ∧ (∀ (el : Element) (t : String), E.find path = .ok el →
      el.text = some t → fromStr t = none →
      E.findValue fromStr path = .error (.valueFromStr t)) := by
  refine ⟨?_, ?_, ?_, ?_⟩
  · intro err h
    simp [Element.findValue, h]
  · intro el h ht
    simp [Element.findValue, h, ht]
  · intro el t v h ht hv
    simp [Element.findValue, h, ht, hv]
  · intro el t h ht hv
    simp [Element.findValue, h, ht, hv]

/-- Witness for C8: `<root><number>2</number></root>` parses the text as a
number. -/
theorem c8_find_value_witness :
    numberRoot.find ("number") =
      .ok (⟨none, ("number"), [], [], some ("2"), none⟩ : Element) ∧
    numberRoot.findValue (fun s => if s = ("2") then some (2 : Nat) else none)
      ("number") = .ok (some 2) := by
  refine ⟨rfl, ?_⟩
  exact (c8_find_value Nat _ numberRoot ("number")).2.2.1
    ⟨none, ("number"), [], [], some ("2"), none⟩ ("2") 2 rfl rfl (by simp)

/-- C9: two elements are equal exactly when prefix, name, text and cdata
agree, the attribute maps agree as sets of key-value pairs (order does not
matter), and the children agree elementwise in order, recursively; the
stored attribute order, while irrelevant to equality, is what serialization
emits. -/
theorem c9_structural_equality :
    (∀ (a b : Element),
      (a.attributes.map Prod.fst).Nodup → (b.attributes.map Prod.fst).Nodup →
      (Element.eq a b = true ↔
        (a.pfx = b.pfx ∧ a.name = b.name ∧ a.text = b.text ∧ a.cdata = b.cdata ∧
          a.attributes.toFinset = b.attributes.toFinset ∧
          List.Forall₂ (fun x y => Element.eq x y = true) a.children b.children)))
    ∧ Element.eq elemAttrsAB elemAttrsBA = true
    ∧ Element.write elemAttrsAB =
        XmlEvent.startElement none ("x")
          [⟨none, ("p"), ("1")⟩, ⟨none, ("q"), ("2")⟩] :: bodyEvents elemAttrsAB
    ∧ Element.write elemAttrsBA =
        XmlEvent.startElement none ("x")
          [⟨none, ("q"), ("2")⟩, ⟨none, ("p"), ("1")⟩] :: bodyEvents elemAttrsBA := by
  have hiff : ∀ (a b : Element),
      (a.attributes.map Prod.fst).Nodup → (b.attributes.map Prod.fst).Nodup →
      (Element.eq a b = true ↔
        (a.pfx = b.pfx ∧ a.name = b.name ∧ a.text = b.text ∧ a.cdata = b.cdata ∧
          a.attributes.toFinset = b.attributes.toFinset ∧
          List.Forall₂ (fun x y => Element.eq x y = true) a.children b.children)) := by
    intro a b ha hb
    obtain ⟨p1, n1, a1, c1, t1, d1⟩ := a
    obtain ⟨p2, n2, a2, c2, t2, d2⟩ := b
    simp only [Element.eq, Bool.and_eq_true, beq_iff_eq]
    rw [mapEq_iff_toFinset a1 a2 ha hb, elemListEq_iff_forall2 c1 c2]
    tauto
  refine ⟨hiff, ?_, ?_, ?_⟩
  · apply (hiff elemAttrsAB elemAttrsBA (by decide) (by decide)).mpr
    refine ⟨rfl, rfl, rfl, rfl, by decide, List.Forall₂.nil⟩
  · exact write_eq elemAttrsAB
  · exact write_eq elemAttrsBA

/-- Witness for C9 at concrete attribute maps in opposite stored orders. -/
theorem c9_structural_equality_witness :
    Element.eq elemAttrsBA elemAttrsAB = true := by
  apply ((c9_structural_equality).1 elemAttrsBA elemAttrsAB
    (by decide) (by decide)).mpr
  refine ⟨rfl, rfl, rfl, rfl, by decide, List.Forall₂.nil⟩

/-- C10: `Element::write` emits start and end tags carrying only the local
name — any element prefix is dropped — so serializing a prefixed element and
rebuilding it yields an element whose prefix is `none`. -/
theorem c10_prefix_dropped (E : Element) (p : String) (hp : E.pfx = some p) :
    (Element.write E).head? =
      some (XmlEvent.startElement none E.name (startAttrs E))
    ∧ (Element.write E).getLast? = some (XmlEvent.endElement none E.name)
    ∧ ∃ E2, buildElement (Element.write E) = .ok E2 ∧ E2.pfx = none := by
  refine ⟨?_, ?_, ⟨Element.canon E, buildElement_write E, ?_⟩⟩
  · rw [write_eq]
    rfl
  · rw [write_eq]
    have hsplit : XmlEvent.startElement none E.name (startAttrs E) :: bodyEvents E =
        (XmlEvent.startElement none E.name (startAttrs E) ::
          (optEvent XmlEvent.characters E.text ++
            optEvent XmlEvent.cdataEvent E.cdata ++ writeList E.children)) ++
          [XmlEvent.endElement none E.name] := by
      simp [bodyEvents]
    rw [hsplit, List.getLast?_concat]
  · obtain ⟨p2, n, ats, cs, t, d⟩ := E
    simp [Element.canon]

/-- Witness for C10 at a concrete prefixed element. -/
theorem c10_prefix_dropped_witness :
    samplePrefixed.pfx = some ("xsl") ∧
      ∃ E2, buildElement (Element.write samplePrefixed) = .ok E2 ∧
        E2.pfx = none :=
  ⟨rfl, (c10_prefix_dropped samplePrefixed ("xsl") rfl).2.2⟩

end Treexml
